import Mathlib

/-!
Verification of the pytnt TNT-file reader and spectral processing code.

The Python sources are shallowly embedded: bytes are natural numbers,
byte buffers are lists of naturals, numpy float values are rationals
where only ordering and exact arithmetic matter (the ppm axis and the
delay tables) and real or complex numbers where transcendental
functions occur (the FFT pipeline).  Stateful loops over the file are
written as fuel-indexed structural recursions; the fuel passed at each
top-level call site is an upper bound on the number of loop iterations,
so the embedded function agrees with the Python loop on every input.
-/

namespace PyTNT

/-! ### Association lists

Python dictionaries (`tnt_sections`, an `OrderedDict`, and `DELAY`, a
plain `dict`) are modelled as association lists with unique keys where
assignment to an existing key replaces the stored value in place. -/

/-- Dictionary assignment `m[k] = v`: replace the value at an existing
key, otherwise append a new binding at the end. -/
def updAssoc {α β : Type} [DecidableEq α] : List (α × β) → α → β → List (α × β)
  | [], k, v => [(k, v)]
  | p :: m, k, v => if p.1 = k then (k, v) :: m else p :: updAssoc m k v

/-- Dictionary lookup `m[k]`, returning the first binding for `k`. -/
def lookupAssoc {α β : Type} [DecidableEq α] (m : List (α × β)) (k : α) : Option β :=
  (m.find? (fun p => p.1 = k)).map (fun p => p.2)

/-! ### The section table reader

`TNTfile.__init__` (src/pytnt/processTNT.py lines 44-57) reads
fixed-size TLV headers until a short read, buffering payloads of at
most 4096 bytes and seeking over larger ones.  The TLV byte layout
itself lives in the `TNTdtypes` module, which is not part of the
sources; it is modelled from the spec: a 4-byte tag, an unsigned
little-endian 4-byte length and a one-byte boolean flag. -/

/-- One entry of `tnt_sections`: file offset just past the header, the
declared payload length, the boolean flag, and the buffered payload
bytes when the payload was small enough to read inline. -/
structure SectionEntry where
  offset : Nat
  length : Nat
  flag : Bool
  data : Option (List Nat)
  deriving DecidableEq

/-- Modelled from the spec: the TLV header occupies 9 bytes
(4-byte tag, 4-byte length, 1-byte flag). -/
def TLVsize : Nat := 9

/-- The bytes `l[a : a+len]` of a buffer. -/
def listSlice (l : List Nat) (a len : Nat) : List Nat := (l.drop a).take len

/-- Value of a little-endian byte run. -/
def leNat (bs : List Nat) : Nat := bs.foldr (fun b acc => b + 256 * acc) 0

/-- The section-header loop of `TNTfile.__init__`.  A header read that
returns fewer than `TLVsize` bytes ends the loop normally; a payload
read that returns fewer bytes than the declared length fails the
Python `assert` and aborts parsing (`.error`).  The fuel decreases at
every iteration; each iteration advances `pos` by at least `TLVsize`,
so `file.length + 1` iterations can never be exhausted and the
`.error` at fuel zero is unreachable from `readSectionTable`. -/
def readSectionsGo (file : List Nat) :
    Nat → Nat → List (List Nat × SectionEntry) → Except Unit (List (List Nat × SectionEntry))
  | 0, _, _ => .error ()
  | fuel + 1, pos, acc =>
    if pos + TLVsize ≤ file.length then
      let tag := listSlice file pos 4
      let len := leNat (listSlice file (pos + 4) 4)
      let flag : Bool := (file.getD (pos + 8) 0) ≠ 0
      let offset := pos + TLVsize
      if len ≤ 4096 then
        let data := listSlice file offset len
        if data.length = len then
          readSectionsGo file fuel (offset + len) (updAssoc acc tag ⟨offset, len, flag, some data⟩)
        else .error ()
      else
        readSectionsGo file fuel (offset + len) (updAssoc acc tag ⟨offset, len, flag, none⟩)
    else .ok acc

/-- The section table built by `TNTfile.__init__` starting just after
the magic signature at `startPos`. -/
def readSectionTable (file : List Nat) (startPos : Nat) :
    Except Unit (List (List Nat × SectionEntry)) :=
  readSectionsGo file (file.length + 1) startPos []

/-! ### The delay table extractor

`TNTfile.__init__` (src/pytnt/processTNT.py lines 58-85) scans the
bytes from the PSEQ section offset onwards for matches of the regular
expression `de[0-9]+:[0-9]` and decodes a Pascal string ending where
the match starts (its 4-byte length prefix sits 4 bytes before the
match) followed by a second Pascal string holding the whitespace
separated delay tokens.  Helper functions `read_pascal_string` and
`convert_si` live in `pytnt/utils.py`, which is not part of the
sources; both are modelled from the spec. -/

/-- Modelled from the spec: a Pascal string is a 4-byte little-endian
unsigned length followed by that many payload bytes; when the declared
length exceeds the remaining buffer the Python helper raises
`IndexError`, modelled as `none`.  Text decoding with a single-byte
encoding is the identity on the payload bytes, so the decoded string
is kept as its byte list (its Python `len` equals the byte count). -/
def read_pascal_string (data : List Nat) : Option (List Nat) :=
  match data with
  | l0 :: l1 :: l2 :: l3 :: rest =>
    let len := l0 + 256 * l1 + 65536 * l2 + 16777216 * l3
    if len ≤ rest.length then some (rest.take len) else none
  | _ => none

/-- Python whitespace bytes used by `str.split()`:
space, tab, newline, carriage return, vertical tab, form feed. -/
def isWSb (b : Nat) : Bool := b = 32 || b = 9 || b = 10 || b = 13 || b = 11 || b = 12

/-- Loop of `str.split()`: skip whitespace, collect maximal
non-whitespace runs.  Each step consumes at least one byte, so fuel
`l.length` never runs out when started by `splitWS`. -/
def splitWSGo : Nat → List Nat → List (List Nat)
  | 0, _ => []
  | _, [] => []
  | fuel + 1, b :: t =>
    if isWSb b then splitWSGo fuel t
    else (b :: t.takeWhile (fun c => !isWSb c)) :: splitWSGo fuel (t.dropWhile (fun c => !isWSb c))

/-- Python `str.split()` with no argument: tokens are maximal runs of
non-whitespace bytes. -/
def splitWS (l : List Nat) : List (List Nat) := splitWSGo l.length l

/-- ASCII decimal digit. -/
def isDigitB (b : Nat) : Bool := decide (48 ≤ b ∧ b ≤ 57)

/-- Value of an ASCII digit run. -/
def digitsToNat (l : List Nat) : Nat := l.foldl (fun a b => 10 * a + (b - 48)) 0

/-- Modelled from the spec: the numeric mantissa of an SI token is an
optionally signed decimal literal, `digits`, `digits.digits`,
`.digits` or `digits.`; anything else fails `float()` with
`ValueError`, modelled as `none`. -/
def parseDecimal (s : List Nat) : Option ℚ :=
  let sgn : ℚ := match s with | 45 :: _ => -1 | _ => 1
  let s1 : List Nat := match s with | 45 :: t => t | _ => s
  let ip := s1.takeWhile isDigitB
  let rest := s1.dropWhile isDigitB
  match rest with
  | [] => if s1.isEmpty then none else some (sgn * (digitsToNat ip : ℚ))
  | 46 :: fp =>
    if fp.all isDigitB && !(ip.isEmpty && fp.isEmpty) then
      some (sgn * ((digitsToNat ip : ℚ) + (digitsToNat fp : ℚ) / (10 ^ fp.length)))
    else none
  | _ => none

/-- Modelled from the spec: single-character SI magnitude suffixes map
to powers of 1000 relative to the base unit. -/
def SIfactor (c : Nat) : Option ℚ :=
  if c = 112 then some (1 / 1000000000000)
  else if c = 110 then some (1 / 1000000000)
  else if c = 117 then some (1 / 1000000)
  else if c = 109 then some (1 / 1000)
  else if c = 107 then some 1000
  else if c = 77 then some 1000000
  else if c = 71 then some 1000000000
  else none

/-- Modelled from the spec: convert one SI-suffixed token to a
rational number of base units; an unrecognised suffix or a non-numeric
mantissa fails with `ValueError`, modelled as `none`. -/
def convert_si (tok : List Nat) : Option ℚ :=
  match tok.getLast? with
  | none => none
  | some c =>
    match SIfactor c with
    | some f => (parseDecimal tok.dropLast).map (fun q => q * f)
    | none => parseDecimal tok

/-- `convert_si` applied to every token of the split delay string. -/
def convert_si_list : List (List Nat) → Option (List ℚ)
  | [] => some []
  | t :: r =>
    match convert_si t, convert_si_list r with
    | some v, some vs => some (v :: vs)
    | _, _ => none

/-- Python slicing `l[i:]` including the negative-index convention:
a negative start counts from the end of the buffer and is clamped
to 0. -/
def pyDropInt (l : List Nat) (i : Int) : List Nat :=
  if i < 0 then l.drop ((l.length : Int) + i).toNat else l.drop i.toNat

/-- Length of the maximal ASCII digit run at the head of the list. -/
def digitRunLen : List Nat → Nat
  | [] => 0
  | b :: t => if isDigitB b then digitRunLen t + 1 else 0

/-- Length of the regular-expression match `de[0-9]+:[0-9]` anchored at
position `p` of the region, if any.  Since the digit class and the
colon are disjoint, the greedy `[0-9]+` never backtracks and the match
consumes `de`, the maximal digit run, the colon and one digit. -/
def matchAt (region : List Nat) (p : Nat) : Option Nat :=
  match region.drop p with
  | 100 :: 101 :: rest =>
    let k := digitRunLen rest
    if 1 ≤ k && rest.getD k 0 = 58 && isDigitB (rest.getD (k + 1) 0) then some (k + 4)
    else none
  | _ => none

/-- `re.finditer` scanning loop: leftmost non-overlapping matches,
resuming at the end of each match.  Every step advances the position
by at least one byte, so fuel `region.length` never runs out when
started by `finditer`. -/
def finditerGo (region : List Nat) : Nat → Nat → List Nat
  | 0, _ => []
  | fuel + 1, p =>
    if p < region.length then
      match matchAt region p with
      | some len => p :: finditerGo region fuel (p + len)
      | none => finditerGo region fuel (p + 1)
    else []

/-- Start positions of all non-overlapping `de[0-9]+:[0-9]` matches in
the search region. -/
def finditer (region : List Nat) : List Nat := finditerGo region region.length 0

/-- The body of the `for match in delay_re.finditer(...)` loop
(src/pytnt/processTNT.py lines 68-85).  A failed Pascal-string decode
of the name is caught and skips the candidate; a failed decode of the
delay string, or a failed SI conversion, propagates out of
`__init__` (`none`).  The delay string is discarded exactly when its
decoded length is at most 1. -/
def processMatch (region : List Nat) (DELAY : List (List Nat × List ℚ)) (mstart : Nat) :
    Option (List (List Nat × List ℚ)) :=
  match read_pascal_string (pyDropInt region ((mstart : Int) - 4)) with
  | none => some DELAY
  | some delay_name =>
    match read_pascal_string (region.drop (mstart + delay_name.length)) with
    | none => none
    | some delay =>
      if 1 < delay.length then
        match convert_si_list (splitWS delay) with
        | none => none
        | some vals => some (updAssoc DELAY delay_name vals)
      else some DELAY

/-- Fold `processMatch` over the scan results. -/
def processMatches (region : List Nat) :
    List Nat → List (List Nat × List ℚ) → Option (List (List Nat × List ℚ))
  | [], DELAY => some DELAY
  | m :: rest, DELAY =>
    match processMatch region DELAY m with
    | some DELAY2 => processMatches region rest DELAY2
    | none => none

/-- The `DELAY` mapping built by `TNTfile.__init__` from the bytes
starting at the PSEQ section offset. -/
def buildDELAY (region : List Nat) : Option (List (List Nat × List ℚ)) :=
  processMatches region (finditer region) []

/-- A synthetic PSEQ region with one delay-table candidate: the 4-byte
length prefix (6) of the name `de12:3` — the name contains the scan
marker — followed by the Pascal string `5u`, a delay list of one token
spelled with two characters. -/
def singleTokenRegion : List Nat :=
  [6, 0, 0, 0, 100, 101, 49, 50, 58, 51, 2, 0, 0, 0, 53, 117]

/-! ### Opening a file

`TNTfile.__init__` first reads the fixed-width magic signature and
rejects the file when it does not match `TNTdtypes.Magic_re`
(src/pytnt/processTNT.py lines 37-41); only then does it read the
section table and scan for delay tables.  The magic layout and pattern
live in the `TNTdtypes` module, which is not part of the sources, so
they are modelled from the spec as a width `magicLen` and a predicate
`magicOk` on the leading bytes.  The error taxonomy follows the spec:
the invalid signature, a short read and a section-length mismatch are
all `formatError`. -/

/-- Errors of the open operation, named as in the spec taxonomy. -/
inductive TNTError where
  | formatError
  | keyError
  | conversionError
  deriving DecidableEq

/-- The state built by a successful `TNTfile.__init__`: the section
table and the delay tables.  (The TMAG/TMG2 records and the DATA
mapping are decoded afterwards from table entries; no claim depends on
their byte layout, which is not part of the sources.) -/
structure ParsedTNT where
  tnt_sections : List (List Nat × SectionEntry)
  DELAY : List (List Nat × List ℚ)
  deriving DecidableEq

/-- ASCII bytes of the tag `PSEQ`. -/
def pseqTag : List Nat := [80, 83, 69, 81]

/-- `TNTfile.__init__` up to the end of the `with open(...)` block:
read and validate the magic signature, build the section table, then
scan from the PSEQ offset for delay tables.  A file shorter than the
magic width or an unmatched signature fails with `formatError` before
any further parsing; the pure `Except` result models that no partially
constructed object survives a failure. -/
def openTNT (magicLen : Nat) (magicOk : List Nat → Bool) (file : List Nat) :
    Except TNTError ParsedTNT :=
  if (file.take magicLen).length = magicLen then
    if magicOk (file.take magicLen) then
      match readSectionTable file magicLen with
      | .error _ => .error .formatError
      | .ok tbl =>
        match lookupAssoc tbl pseqTag with
        | none => .error .keyError
        | some pseq =>
          match buildDELAY (file.drop pseq.offset) with
          | none => .error .conversionError
          | some delays => .ok ⟨tbl, delays⟩
    else .error .formatError
  else .error .formatError

/-- A synthetic file for the section-table reader: one header with tag
`AAAA`, length 2 and flag byte 1, its two payload bytes, then a single
stray byte whose short header read ends the table. -/
def sampleSectionFile : List Nat := [65, 65, 65, 65, 2, 0, 0, 0, 1, 7, 9, 3]

/-! ### ppm-range lookup

`TNTfile.ppm_points` exists in two versions.  The current one
(src/pytnt/processTNT.py lines 214-228) uses `np.searchsorted` on the
reversed (ascending) axis; the legacy one (src/processTNT.py lines
180-199) uses two linear scans.  Both are embedded below over an
arbitrary rational axis, matching their quantification in the claims
("for every monotonically decreasing ppm axis"). -/

/-- The numpy binary-search loop underlying `np.searchsorted`: keep
the invariant window `[lo, hi)` and move `lo` past the midpoint while
`pred mid` holds.  The window shrinks at every step, so fuel `hi - lo`
suffices; `searchsorted_left`/`searchsorted_right` pass the array
length. -/
def np_binsearch (pred : Nat → Bool) : Nat → Nat → Nat → Nat
  | 0, lo, _ => lo
  | fuel + 1, lo, hi =>
    if lo < hi then
      let mid := (lo + hi) / 2
      if pred mid then np_binsearch pred fuel (mid + 1) hi
      else np_binsearch pred fuel lo mid
    else lo

/-- `np.searchsorted(a, v, side='left')`: first insertion index, the
loop advancing while `a[mid] < v`. -/
def searchsorted_left (a : List ℚ) (v : ℚ) : Nat :=
  np_binsearch (fun i => a.getD i 0 < v) a.length 0 a.length

/-- `np.searchsorted(a, v, side='right')`: last insertion index, the
loop advancing while `a[mid] ≤ v`. -/
def searchsorted_right (a : List ℚ) (v : ℚ) : Nat :=
  np_binsearch (fun i => a.getD i 0 ≤ v) a.length 0 a.length

/-- `TNTfile.ppm_points` of src/pytnt/processTNT.py: binary searches
over the reversed axis, subtracted from the axis length. -/
def ppm_points_bin (ppm : List ℚ) (max_ppm min_ppm : ℚ) : Nat × Nat :=
  let npts := ppm.length
  (npts - searchsorted_right ppm.reverse max_ppm,
   npts - searchsorted_left ppm.reverse min_ppm)

/-- `TNTfile.ppm_points` of src/processTNT.py: `i_max_ppm` starts at 0
and is set by the first index with value at most `max_ppm`;
`i_min_ppm` starts at `npts` and is set by the first index at or
beyond `i_max_ppm` with value strictly below `min_ppm`. -/
def ppm_points_lin (ppm : List ℚ) (max_ppm min_ppm : ℚ) : Nat × Nat :=
  let npts := ppm.length
  let i_max : Nat :=
    match ppm.findIdx? (fun x => x ≤ max_ppm) with
    | some i => i
    | none => 0
  let i_min : Nat :=
    match (ppm.drop i_max).findIdx? (fun x => x < min_ppm) with
    | some k => i_max + k
    | none => npts
  (i_max, i_min)

/-! ### Completed-spectrum count

`TNTfile.n_complete_spec` (src/pytnt/processTNT.py lines 247-259).
`actual_npts` is the fixed-length four-vector of acquisition
dimensions from the TMAG record; the failing `assert` on a dimension
beyond the second differing from 1 is modelled as `none`. -/

/-- `TNTfile.n_complete_spec`: assert `actual_npts[2:] == 1`, then
return `actual_npts[1]`, minus one when the recorded scan count shows
the last spectrum incomplete. -/
def n_complete_spec (actual_npts : Fin 4 → Int) (scans actual_scans : Int) : Option Int :=
  if actual_npts 2 = 1 ∧ actual_npts 3 = 1 then
    some (if scans = actual_scans then actual_npts 1 else actual_npts 1 - 1)
  else none

/-! ### The windowed FFT

`TNTfile.LBfft` (src/pytnt/processTNT.py lines 153-186).  The input
array is complex with the transformed axis first; the three trailing
axes only ever broadcast, so they are embedded as one index type `T`
(finite, because automatic phasing sums the whole array).  numpy
floats are idealised as real numbers. -/

/-- Python slice-start normalisation for `l[i:]` on an axis of length
`n`: a negative `i` counts from the end and clamps at 0, a
non-negative one clamps at `n`. -/
def sliceStartPy (n : Nat) (i : Int) : Nat :=
  if i < 0 then ((n : Int) + i).toNat else min i.toNat n

/-- First index of the slice `DATA[int(npts / -8):]`.  The float
division `npts / -8` is exact (the divisor is a power of two) and
`int` truncates toward zero, giving `-(npts / 8)` with natural
division. -/
def dcSliceStart (npts : Nat) : Nat :=
  sliceStartPy npts (-((npts / 8 : Nat) : Int))

/-- The default DC offset of `LBfft`: `np.mean` of the trailing slice
along the first axis, i.e. the slice sum divided by the number of
sliced points. -/
noncomputable def defaultDCoffset (npts : Nat) (T : Type) (DATA : Fin npts → T → ℂ) (t : T) : ℂ :=
  (∑ j ∈ Finset.univ.filter (fun j : Fin npts => dcSliceStart npts ≤ j.val), DATA j t) /
    ((npts - dcSliceStart npts : Nat) : ℂ)

/-- `np.fft.fft(x, n=m, axis=0)`: the input is zero-padded (or
truncated) to `m` points and the unnormalised DFT is taken. -/
noncomputable def dftPad (npts m : Nat) (T : Type) (x : Fin npts → T → ℂ) (k : Fin m) (t : T) : ℂ :=
  ∑ j : Fin m,
    (if h : j.val < npts then x ⟨j.val, h⟩ t else 0) *
      Complex.exp (-2 * Real.pi * Complex.I * j.val * k.val / m)

/-- `np.fft.fftshift` along the first axis: a circular roll by
`m / 2`, so output `k` reads input `(k - m/2) mod m`. -/
def fftshiftIdx (m : Nat) (k : Fin m) : Fin m :=
  ⟨(k.val + (m - m / 2)) % m, Nat.mod_lt _ k.pos⟩

/-- `np.linspace(-0.5, 0.5, m)` at index `k`. -/
noncomputable def linspaceVal (m : Nat) (k : Nat) : ℝ :=
  if m = 1 then -(1 / 2) else -(1 / 2) + k / ((m : ℝ) - 1)

/-- `TNTfile.LBfft`: subtract the DC offset (estimated from the
trailing eighth of the points when not supplied), apply the
exponential line-broadening weight, zero-fill to `npts * 2 ^ zf`
points, Fourier transform, centre the zero frequency, normalise by the
square root of the output length, and phase either automatically (zero
the phase of the total sum) or by the manual zero- and first-order
terms. -/
noncomputable def LBfft (npts : Nat) (T : Type) [Fintype T] (DATA : Fin npts → T → ℂ)
    (dwell : ℝ) (LB : ℝ) (zf : Nat) (phase : Option ℝ) (ph1 : ℝ)
    (DCoffset : Option (T → ℂ)) : Fin (npts * 2 ^ zf) → T → ℂ :=
  let LBdw : ℝ := -LB * dwell * Real.pi
  let npts_ft := npts * 2 ^ zf
  let DCo : T → ℂ :=
    match DCoffset with
    | some d => d
    | none => defaultDCoffset npts T DATA
  let DATAlb : Fin npts → T → ℂ := fun j t =>
    (DATA j t - DCo t) * (Real.exp (LBdw * j.val) : ℝ)
  let DATAfft : Fin npts_ft → T → ℂ := fun k t => dftPad npts npts_ft T DATAlb k t
  let shifted : Fin npts_ft → T → ℂ := fun k t => DATAfft (fftshiftIdx npts_ft k) t
  let normed : Fin npts_ft → T → ℂ := fun k t => shifted k t / (Real.sqrt npts_ft : ℝ)
  match phase with
  | none => fun k t =>
      normed k t *
        Complex.exp (-Complex.I * (Complex.arg (∑ k2 : Fin npts_ft, ∑ t2 : T, normed k2 t2) : ℝ))
  | some ph => fun k t =>
      normed k t * Complex.exp (Complex.I * ((ph + ph1 * linspaceVal npts_ft k.val : ℝ) : ℂ))

/-! ## Lemmas about the binary search and the ppm axis -/

/-- The numpy binary-search loop returns the boundary of any predicate
that is true exactly below some point `b` of the window, provided the
fuel covers the window size. -/
theorem np_binsearch_eq (pred : Nat → Bool) (fuel lo hi b : Nat) (h1 : lo ≤ b) (h2 : b ≤ hi)
    (hfuel : hi - lo ≤ fuel) (hiff : ∀ i, lo ≤ i → i < hi → (pred i = true ↔ i < b)) :
    np_binsearch pred fuel lo hi = b := by
  induction fuel generalizing lo hi with
  | zero =>
    have hb : b = lo := by omega
    simp [np_binsearch, hb]
  | succ n ih =>
    by_cases hlh : lo < hi
    · have hmlo : lo ≤ (lo + hi) / 2 := by omega
      have hmhi : (lo + hi) / 2 < hi := by omega
      by_cases hp : pred ((lo + hi) / 2) = true
      · have hmb : (lo + hi) / 2 < b := (hiff _ hmlo hmhi).mp hp
        simp only [np_binsearch, if_pos hlh, hp, if_pos]
        exact ih ((lo + hi) / 2 + 1) hi hmb h2 (by omega) (fun i hi1 hi2 => hiff i (by omega) hi2)
      · have hbm : b ≤ (lo + hi) / 2 := by
          by_contra hc
          exact hp ((hiff _ hmlo hmhi).mpr (by omega))
        simp only [np_binsearch, if_pos hlh, hp, if_neg, Bool.false_eq_true, if_false]
        exact ih lo ((lo + hi) / 2) h1 hbm (by omega) (fun i hi1 hi2 => hiff i hi1 (by omega))
    · have hb : b = lo := by omega
      simp [np_binsearch, if_neg hlh, hb]

/-- In a list sorted ascending, a predicate closed downward under `≤`
holds at position `i` exactly when `i` lies below the count of
satisfying elements. -/
theorem sorted_getD_iff (p : ℚ → Bool) (hp : ∀ x y : ℚ, x ≤ y → p y = true → p x = true)
    (a : List ℚ) (hs : a.Pairwise (fun x y => x ≤ y)) :
    ∀ i, i < a.length → (p (a.getD i 0) = true ↔ i < a.countP p) := by
  induction a with
  | nil => intro i hi; simp at hi
  | cons x t ih =>
    rw [List.pairwise_cons] at hs
    obtain ⟨hx, ht⟩ := hs
    intro i hi
    match i with
    | 0 =>
      simp only [List.getD_cons_zero, List.countP_cons]
      by_cases hpx : p x = true
      · simp [hpx]
      · have h0 : t.countP p = 0 :=
          List.countP_eq_zero.mpr (fun y hy hpy => hpx (hp x y (hx y hy) hpy))
        simp [hpx, h0]
    | i + 1 =>
      simp only [List.getD_cons_succ, List.countP_cons]
      have hi2 : i < t.length := by simpa using hi
      rw [ih ht i hi2]
      by_cases hpx : p x = true
      · simp [hpx]
      · have h0 : t.countP p = 0 :=
          List.countP_eq_zero.mpr (fun y hy hpy => hpx (hp x y (hx y hy) hpy))
        simp [hpx, h0]

/-- `np.searchsorted(a, v, side='right')` on a sorted ascending list
counts the elements at most `v`. -/
theorem searchsorted_right_eq (a : List ℚ) (hs : a.Pairwise (fun x y => x ≤ y)) (v : ℚ) :
    searchsorted_right a v = a.countP (fun x => x ≤ v) :=
  np_binsearch_eq _ _ _ _ _ (Nat.zero_le _) (List.countP_le_length _) (by omega)
    (fun i _ hl =>
      sorted_getD_iff (fun x => x ≤ v)
        (fun x y hxy hy => by
          simp only [decide_eq_true_eq] at hy ⊢
          exact le_trans hxy hy)
        a hs i hl)

/-- `np.searchsorted(a, v, side='left')` on a sorted ascending list
counts the elements strictly below `v`. -/
theorem searchsorted_left_eq (a : List ℚ) (hs : a.Pairwise (fun x y => x ≤ y)) (v : ℚ) :
    searchsorted_left a v = a.countP (fun x => x < v) :=
  np_binsearch_eq _ _ _ _ _ (Nat.zero_le _) (List.countP_le_length _) (by omega)
    (fun i _ hl =>
      sorted_getD_iff (fun x => x < v)
        (fun x y hxy hy => by
          simp only [decide_eq_true_eq] at hy ⊢
          exact lt_of_le_of_lt hxy hy)
        a hs i hl)

/-- In a monotonically decreasing list, a predicate closed downward
under `≤` is satisfied exactly by a suffix, so its first satisfying
index is the length minus the satisfying count. -/
theorem antitone_findIdx_eq (p : ℚ → Bool) (hp : ∀ x y : ℚ, y ≤ x → p x = true → p y = true)
    (a : List ℚ) (hs : a.Pairwise (fun x y => x ≥ y)) :
    a.findIdx p = a.length - a.countP p := by
  induction a with
  | nil => simp
  | cons x t ih =>
    rw [List.pairwise_cons] at hs
    obtain ⟨hx, ht⟩ := hs
    rw [List.findIdx_cons, List.countP_cons]
    by_cases hpx : p x = true
    · have hall : t.countP p = t.length :=
        List.countP_eq_length.mpr (fun y hy => hp x y (ge_iff_le.mp (hx y hy)) hpx)
      simp [hpx, hall]
    · have hc : t.countP p ≤ t.length := List.countP_le_length _
      have hf : p x = false := by simpa using hpx
      simp only [hf, cond_false, Bool.false_eq_true, if_false, List.length_cons, ih ht,
        Nat.add_zero]
      omega

/-- `findIdx` is antitone in the strength of the predicate. -/
theorem findIdx_le_findIdx_imp (l : List ℚ) (p q : ℚ → Bool) (h : ∀ x, q x = true → p x = true) :
    l.findIdx p ≤ l.findIdx q := by
  induction l with
  | nil => simp
  | cons x t ih =>
    rw [List.findIdx_cons, List.findIdx_cons]
    by_cases hq : q x = true
    · simp [hq, h x hq]
    · by_cases hp : p x = true
      · simp [hp, hq]
      · simp only [hp, hq, cond_false]
        omega

/-- A first-match index splits over `drop` at any earlier position. -/
theorem findIdx_drop_add (q : ℚ → Bool) (k : Nat) (l : List ℚ) (hk : k ≤ l.findIdx q) :
    l.findIdx q = k + (l.drop k).findIdx q := by
  induction k generalizing l with
  | zero => simp
  | succ n ih =>
    match l with
    | [] => simp at hk
    | x :: t =>
      rw [List.findIdx_cons] at hk ⊢
      by_cases hq : q x = true
      · simp [hq] at hk
      · simp only [hq, cond_false] at hk ⊢
        rw [List.drop_succ_cons]
        have := ih t (by omega)
        omega

/-- If some element satisfies the predicate, `findIdx?` finds the
`findIdx` position. -/
theorem findIdx?_eq_some_findIdx (l : List ℚ) (p : ℚ → Bool) (hex : ∃ x ∈ l, p x = true) :
    l.findIdx? p = some (l.findIdx p) := by
  induction l with
  | nil => simp at hex
  | cons x t ih =>
    rw [List.findIdx?_cons, List.findIdx_cons]
    by_cases hp : p x = true
    · simp [hp]
    · have hex2 : ∃ y ∈ t, p y = true := by
        obtain ⟨y, hy, hpy⟩ := hex
        rcases List.mem_cons.mp hy with rfl | hyt
        · exact absurd hpy hp
        · exact ⟨y, hyt, hpy⟩
      rw [List.findIdx?_succ, ih hex2]
      simp [hp]

/-- The binary-search `ppm_points` on a monotonically decreasing axis
returns the first index with value at most `max_ppm` and the first
index with value strictly below `min_ppm` (`findIdx` returning the
length when no index qualifies). -/
theorem ppm_points_bin_eq (ppm : List ℚ) (maxp minp : ℚ)
    (hs : ppm.Pairwise (fun x y => x ≥ y)) :
    ppm_points_bin ppm maxp minp =
      (ppm.findIdx (fun x => x ≤ maxp), ppm.findIdx (fun x => x < minp)) := by
  have hrev : ppm.reverse.Pairwise (fun x y : ℚ => x ≤ y) := by
    rw [List.pairwise_reverse]
    exact hs.imp (fun h => h)
  have h1 : ppm.findIdx (fun x => x ≤ maxp) =
      ppm.length - ppm.countP (fun x => x ≤ maxp) :=
    antitone_findIdx_eq _
      (fun x y hxy hy => by
        simp only [decide_eq_true_eq] at hy ⊢
        exact le_trans hxy hy)
      ppm hs
  have h2 : ppm.findIdx (fun x => x < minp) =
      ppm.length - ppm.countP (fun x => x < minp) :=
    antitone_findIdx_eq _
      (fun x y hxy hy => by
        simp only [decide_eq_true_eq] at hy ⊢
        exact lt_of_le_of_lt hxy hy)
      ppm hs
  show (ppm.length - searchsorted_right ppm.reverse maxp,
        ppm.length - searchsorted_left ppm.reverse minp) = _
  rw [searchsorted_right_eq _ hrev, searchsorted_left_eq _ hrev,
    List.countP_reverse, List.countP_reverse, h1, h2]

/-- On a monotonically decreasing axis with `min_ppm ≤ max_ppm`, any
index with value strictly below `min_ppm` already has value at most
`max_ppm`, so the first of the former is at least the first of the
latter. -/
theorem ppm_findIdx_mono (ppm : List ℚ) (maxp minp : ℚ) (hmm : minp ≤ maxp) :
    ppm.findIdx (fun x => x ≤ maxp) ≤ ppm.findIdx (fun x => x < minp) :=
  findIdx_le_findIdx_imp _ _ _
    (fun x hx => by
      simp only [decide_eq_true_eq] at hx ⊢
      exact le_trans (le_of_lt hx) hmm)

/-- The linear-scan `ppm_points` also returns the two first-match
indices, provided some axis value is at most `max_ppm` (otherwise its
first component stays at its initialisation 0). -/
theorem ppm_points_lin_eq (ppm : List ℚ) (maxp minp : ℚ) (hmm : minp ≤ maxp)
    (hex : ∃ x ∈ ppm, x ≤ maxp) :
    ppm_points_lin ppm maxp minp =
      (ppm.findIdx (fun x => x ≤ maxp), ppm.findIdx (fun x => x < minp)) := by
  have hex2 : ∃ x ∈ ppm, (fun x => decide (x ≤ maxp)) x = true := by
    obtain ⟨x, hx, hle⟩ := hex
    exact ⟨x, hx, by simpa using hle⟩
  have hA := findIdx?_eq_some_findIdx ppm _ hex2
  have hmono := ppm_findIdx_mono ppm maxp minp hmm
  have hAle : ppm.findIdx (fun x => decide (x ≤ maxp)) ≤ ppm.length :=
    List.findIdx_le_length _
  have hdrop := findIdx_drop_add (fun x => decide (x < minp))
    (ppm.findIdx (fun x => decide (x ≤ maxp))) ppm hmono
  rcases h2 : (ppm.drop (ppm.findIdx (fun x => decide (x ≤ maxp)))).findIdx?
      (fun x => decide (x < minp)) with _ | k
  · have hall := List.findIdx?_eq_none_iff.mp h2
    have hlen : (ppm.drop (ppm.findIdx (fun x => decide (x ≤ maxp)))).findIdx
        (fun x => decide (x < minp)) =
        (ppm.drop (ppm.findIdx (fun x => decide (x ≤ maxp)))).length :=
      List.findIdx_eq_length.mpr hall
    have hdl : (ppm.drop (ppm.findIdx (fun x => decide (x ≤ maxp)))).length =
        ppm.length - ppm.findIdx (fun x => decide (x ≤ maxp)) := List.length_drop _ _
    simp only [ppm_points_lin, hA, h2]
    rw [Prod.mk.injEq]
    exact ⟨rfl, by omega⟩
  · have hex3 : ∃ x ∈ ppm.drop (ppm.findIdx (fun x => decide (x ≤ maxp))),
        (fun x => decide (x < minp)) x = true := by
      by_contra hc
      push_neg at hc
      rw [List.findIdx?_eq_none_iff.mpr (fun x hx => by simpa using hc x hx)] at h2
      exact Option.noConfusion h2
    have hk : k = (ppm.drop (ppm.findIdx (fun x => decide (x ≤ maxp)))).findIdx
        (fun x => decide (x < minp)) :=
      Option.some.inj (h2.symm.trans (findIdx?_eq_some_findIdx _ _ hex3))
    simp only [ppm_points_lin, hA, h2]
    rw [Prod.mk.injEq]
    exact ⟨rfl, by omega⟩

/-- Claim C2: on every monotonically decreasing ppm axis with
`max_ppm ≥ min_ppm`, the binary-search `ppm_points` returns the first
index with value at most `max_ppm` paired with the first index at or
beyond it with value strictly below `min_ppm`, `findIdx` clamping to 0
when `max_ppm` exceeds the whole axis and to the axis length when
`min_ppm` is below it. -/
theorem ppm_points_first_indices (ppm : List ℚ) (maxp minp : ℚ)
    (hs : ppm.Pairwise (fun x y => x ≥ y)) (hmm : minp ≤ maxp) :
    ppm_points_bin ppm maxp minp =
      (ppm.findIdx (fun x => x ≤ maxp), ppm.findIdx (fun x => x < minp)) ∧
    ppm.findIdx (fun x => x ≤ maxp) ≤ ppm.findIdx (fun x => x < minp) ∧
    ppm.findIdx (fun x => x < minp) =
      ppm.findIdx (fun x => x ≤ maxp) +
        (ppm.drop (ppm.findIdx (fun x => x ≤ maxp))).findIdx (fun x => x < minp) :=
  ⟨ppm_points_bin_eq ppm maxp minp hs, ppm_findIdx_mono ppm maxp minp hmm,
    findIdx_drop_add _ _ _ (ppm_findIdx_mono ppm maxp minp hmm)⟩

/-- Witness for C2: the two boundary examples of the spec, obtained by
instantiating the claim theorem on the axis `[10, 8, 6, 4, 2]`. -/
theorem ppm_points_first_indices_witness :
    ppm_points_bin [10, 8, 6, 4, 2] 9 3 = (1, 4) ∧
    ppm_points_bin [10, 8, 6, 4, 2] 20 (-5) = (0, 5) := by
  have h1 := (ppm_points_first_indices [10, 8, 6, 4, 2] 9 3 (by decide) (by norm_num)).1
  have h2 := (ppm_points_first_indices [10, 8, 6, 4, 2] 20 (-5) (by decide) (by norm_num)).1
  rw [h1, h2]
  exact ⟨by decide, by decide⟩

/-- Counterexample for C3: on the decreasing axis `[10, 8, 6, 4, 2]`
with `max_ppm = 1` and `min_ppm = 0` (both below the whole axis), the
legacy linear scan returns `(0, 5)` — its `i_max_ppm` keeps its
initialisation 0 — while the binary search returns `(5, 5)`. -/
theorem ppm_points_lin_bin_differ_cex :
    ([10, 8, 6, 4, 2] : List ℚ).Pairwise (fun x y => x ≥ y) ∧ (0 : ℚ) ≤ 1 ∧
    ppm_points_lin [10, 8, 6, 4, 2] 1 0 ≠ ppm_points_bin [10, 8, 6, 4, 2] 1 0 := by
  decide

/-- Claim C3 (amended): the linear-scan and binary-search versions of
`ppm_points` agree on every monotonically decreasing axis with
`max_ppm ≥ min_ppm` in which some value is at most `max_ppm`; when
`max_ppm` is below the whole axis the linear scan returns `(0, npts)`
while the binary search returns `(npts, npts)`. -/
theorem ppm_points_lin_eq_bin (ppm : List ℚ) (maxp minp : ℚ)
    (hs : ppm.Pairwise (fun x y => x ≥ y)) (hmm : minp ≤ maxp)
    (hex : ∃ x ∈ ppm, x ≤ maxp) :
    ppm_points_lin ppm maxp minp = ppm_points_bin ppm maxp minp := by
  rw [ppm_points_lin_eq ppm maxp minp hmm hex, ppm_points_bin_eq ppm maxp minp hs]

/-- Witness for the amended C3 at a concrete decreasing axis. -/
theorem ppm_points_lin_eq_bin_witness :
    ppm_points_lin [10, 8, 6, 4, 2] 9 3 = ppm_points_bin [10, 8, 6, 4, 2] 9 3 :=
  ppm_points_lin_eq_bin [10, 8, 6, 4, 2] 9 3 (by decide) (by norm_num)
    ⟨8, by decide, by norm_num⟩

/-- Claim C9: on every monotonically decreasing axis with
`max_ppm ≥ min_ppm`, the pair returned by the binary-search
`ppm_points` is a valid half-open index range of the axis. -/
theorem ppm_points_range_valid (ppm : List ℚ) (maxp minp : ℚ)
    (hs : ppm.Pairwise (fun x y => x ≥ y)) (hmm : minp ≤ maxp) :
    (ppm_points_bin ppm maxp minp).1 ≤ (ppm_points_bin ppm maxp minp).2 ∧
    (ppm_points_bin ppm maxp minp).2 ≤ ppm.length := by
  rw [ppm_points_bin_eq ppm maxp minp hs]
  exact ⟨ppm_findIdx_mono ppm maxp minp hmm, List.findIdx_le_length _⟩

/-- Witness for C9 at a concrete decreasing axis. -/
theorem ppm_points_range_valid_witness :
    (ppm_points_bin [10, 8, 6, 4, 2] 9 3).1 ≤ (ppm_points_bin [10, 8, 6, 4, 2] 9 3).2 ∧
    (ppm_points_bin [10, 8, 6, 4, 2] 9 3).2 ≤ ([10, 8, 6, 4, 2] : List ℚ).length :=
  ppm_points_range_valid [10, 8, 6, 4, 2] 9 3 (by decide) (by norm_num)

/-! ## The completed-spectrum count -/

/-- Claim C5: `n_complete_spec` requires the dimensions of
`actual_npts` beyond the second to equal 1, failing the assertion
otherwise, and under that precondition returns `actual_npts[1]` when
`scans` equals `actual_scans` and `actual_npts[1] - 1` otherwise. -/
theorem n_complete_spec_spec (npts : Fin 4 → Int) (scans ascans : Int) :
    ((npts 2 = 1 ∧ npts 3 = 1) →
      (scans = ascans → n_complete_spec npts scans ascans = some (npts 1)) ∧
      (scans ≠ ascans → n_complete_spec npts scans ascans = some (npts 1 - 1))) ∧
    (¬(npts 2 = 1 ∧ npts 3 = 1) → n_complete_spec npts scans ascans = none) := by
  unfold n_complete_spec
  refine ⟨fun h => ⟨fun hsc => ?_, fun hsc => ?_⟩, fun h => ?_⟩
  · simp [h, hsc]
  · simp [h, hsc]
  · simp [h]

/-- Witness for C5: the spec example `actual_npts = [N, 5, 1, 1]` with
`N = 7`, `scans = 8`: 5 complete spectra when `actual_scans = 8` and 4
when `actual_scans = 5`. -/
theorem n_complete_spec_spec_witness :
    n_complete_spec ![7, 5, 1, 1] 8 8 = some 5 ∧
    n_complete_spec ![7, 5, 1, 1] 8 5 = some 4 := by
  have h1 := ((n_complete_spec_spec ![7, 5, 1, 1] 8 8).1 (by constructor <;> decide)).1 rfl
  have h2 := ((n_complete_spec_spec ![7, 5, 1, 1] 8 5).1 (by constructor <;> decide)).2 (by decide)
  rw [h1, h2]
  exact ⟨by decide, by decide⟩

/-! ## The delay-table discard rule -/

/-- Updating an association list makes the key map to the new value:
a later delay table or section header with the same name overwrites
the earlier one. -/
theorem lookupAssoc_updAssoc {α β : Type} [DecidableEq α] (m : List (α × β)) (k : α) (v : β) :
    lookupAssoc (updAssoc m k v) k = some v := by
  induction m with
  | nil => simp [updAssoc, lookupAssoc]
  | cons p m ih =>
    unfold updAssoc
    by_cases hpk : p.1 = k
    · simp [hpk, lookupAssoc]
    · rw [if_neg hpk]
      unfold lookupAssoc at ih ⊢
      rw [List.find?_cons_of_neg _ (by simpa using hpk)]
      exact ih

/-- Counterexample for C1: on `singleTokenRegion` the pattern scan
finds exactly one candidate (at position 4), its decoded raw delay
string `5u` splits into a single token, and yet the table is stored in
the resulting `DELAY` mapping under the decoded name — the code tests
`len(delay) > 1` on the raw string before splitting, and the
two-character string `5u` passes. -/
theorem delay_single_token_kept_cex :
    finditer singleTokenRegion = [4] ∧
    read_pascal_string (singleTokenRegion.drop 10) = some [53, 117] ∧
    (splitWS [53, 117]).length = 1 ∧
    (buildDELAY singleTokenRegion).map
      (fun d => (lookupAssoc d [100, 101, 49, 50, 58, 51]).isSome) = some true := by
  decide

/-- Claim C1 (amended): a delay-table candidate whose name and delay
strings decode is discarded exactly when the decoded raw delay STRING
has at most one character; any longer string — even a single token
such as `5u` — is split, converted and stored under the decoded name. -/
theorem processMatch_discard_rule (region : List Nat) (DELAY : List (List Nat × List ℚ))
    (mstart : Nat) (name delay : List Nat)
    (hn : read_pascal_string (pyDropInt region ((mstart : Int) - 4)) = some name)
    (hd : read_pascal_string (region.drop (mstart + name.length)) = some delay) :
    (delay.length ≤ 1 → processMatch region DELAY mstart = some DELAY) ∧
    (∀ vals, 1 < delay.length → convert_si_list (splitWS delay) = some vals →
      processMatch region DELAY mstart = some (updAssoc DELAY name vals) ∧
      lookupAssoc (updAssoc DELAY name vals) name = some vals) := by
  constructor
  · intro hlen
    simp only [processMatch, hn, hd, if_neg (show ¬1 < delay.length by omega)]
  · intro vals hlen hconv
    simp only [processMatch, hn, hd, if_pos hlen, hconv]
    exact ⟨by simp, lookupAssoc_updAssoc DELAY name vals⟩

/-- Witness for the amended C1: processing the single candidate of
`singleTokenRegion` stores the one-token table `5u` under its name. -/
theorem processMatch_discard_rule_witness :
    ∃ vals, processMatch singleTokenRegion [] 4 =
        some (updAssoc [] [100, 101, 49, 50, 58, 51] vals) ∧
      lookupAssoc (updAssoc ([] : List (List Nat × List ℚ)) [100, 101, 49, 50, 58, 51] vals)
        [100, 101, 49, 50, 58, 51] = some vals := by
  rcases hconv : convert_si_list (splitWS [53, 117]) with _ | vals
  · exact absurd hconv (by decide)
  · exact ⟨vals,
      (processMatch_discard_rule singleTokenRegion [] 4 [100, 101, 49, 50, 58, 51] [53, 117]
          (by decide) (by decide)).2
        vals (by decide) hconv⟩

/-! ## The section table -/

/-- Every binding of an updated association list is an old binding or
the new one. -/
theorem mem_updAssoc {α β : Type} [DecidableEq α] (m : List (α × β)) (k : α) (v : β)
    (x : α × β) (hx : x ∈ updAssoc m k v) : x ∈ m ∨ x = (k, v) := by
  induction m with
  | nil => simpa [updAssoc] using hx
  | cons p m ih =>
    unfold updAssoc at hx
    by_cases hpk : p.1 = k
    · rw [if_pos hpk] at hx
      rcases List.mem_cons.mp hx with rfl | hxm
      · exact Or.inr rfl
      · exact Or.inl (List.mem_cons_of_mem _ hxm)
    · rw [if_neg hpk] at hx
      rcases List.mem_cons.mp hx with rfl | hxm
      · exact Or.inl (List.mem_cons_self _ _)
      · rcases ih hxm with hm | he
        · exact Or.inl (List.mem_cons_of_mem _ hm)
        · exact Or.inr he

/-- The per-entry invariant maintained by the section-header loop:
a payload buffer is present exactly for declared lengths at most 4096,
and a present buffer holds exactly the declared number of bytes. -/
theorem readSectionsGo_entries (file : List Nat) (fuel : Nat) :
    ∀ pos acc tbl, readSectionsGo file fuel pos acc = .ok tbl →
      (∀ t e, (t, e) ∈ acc →
        (e.data.isSome ↔ e.length ≤ 4096) ∧ ∀ d, e.data = some d → d.length = e.length) →
      ∀ t e, (t, e) ∈ tbl →
        (e.data.isSome ↔ e.length ≤ 4096) ∧ ∀ d, e.data = some d → d.length = e.length := by
  induction fuel with
  | zero =>
    intro pos acc tbl h
    exact absurd h (by simp [readSectionsGo])
  | succ n ih =>
    intro pos acc tbl h hacc
    simp only [readSectionsGo] at h
    by_cases h1 : pos + TLVsize ≤ file.length
    · rw [if_pos h1] at h
      by_cases h2 : leNat (listSlice file (pos + 4) 4) ≤ 4096
      · rw [if_pos h2] at h
        by_cases h3 : (listSlice file (pos + TLVsize) (leNat (listSlice file (pos + 4) 4))).length
            = leNat (listSlice file (pos + 4) 4)
        · rw [if_pos h3] at h
          refine ih _ _ _ h (fun t e hte => ?_)
          rcases mem_updAssoc _ _ _ _ hte with hold | hnew
          · exact hacc t e hold
          · obtain ⟨-, he⟩ := Prod.mk.injEq .. ▸ hnew
            subst he
            refine ⟨by simpa using h2, fun d hd => ?_⟩
            obtain rfl := Option.some.inj hd
            exact h3
        · rw [if_neg h3] at h
          exact absurd h (by simp)
      · rw [if_neg h2] at h
        refine ih _ _ _ h (fun t e hte => ?_)
        rcases mem_updAssoc _ _ _ _ hte with hold | hnew
        · exact hacc t e hold
        · obtain ⟨-, he⟩ := Prod.mk.injEq .. ▸ hnew
          subst he
          exact ⟨by simpa using h2, fun d hd => by simp at hd⟩
    · rw [if_neg h1] at h
      injection h with h
      subst h
      exact hacc

/-- Claim C7: in a successfully built section table every entry
buffers its payload exactly when the declared length is at most 4096,
a buffered payload holds exactly the declared number of bytes (larger
sections keep only offset and length), a short header read ends the
table normally with no error, and assigning an existing tag overwrites
the earlier entry. -/
theorem section_table_invariants (file : List Nat) (startPos : Nat)
    (tbl : List (List Nat × SectionEntry)) (h : readSectionTable file startPos = .ok tbl) :
    (∀ t e, (t, e) ∈ tbl →
      (e.data.isSome ↔ e.length ≤ 4096) ∧ ∀ d, e.data = some d → d.length = e.length) ∧
    (file.length < startPos + TLVsize → tbl = []) ∧
    (∀ t e, lookupAssoc (updAssoc tbl t e) t = some e) := by
  refine ⟨readSectionsGo_entries file (file.length + 1) startPos [] tbl h (by simp), ?_,
    fun t e => lookupAssoc_updAssoc tbl t e⟩
  intro hshort
  unfold readSectionTable at h
  rw [readSectionsGo, if_neg (by omega)] at h
  injection h with h
  exact h.symm

/-- Witness for C7 on `sampleSectionFile`, whose table holds a single
entry with a 2-byte buffered payload. -/
theorem section_table_invariants_witness :
    (∀ t e, (t, e) ∈ [([65, 65, 65, 65], SectionEntry.mk 9 2 true (some [7, 9]))] →
      (e.data.isSome ↔ e.length ≤ 4096) ∧ ∀ d, e.data = some d → d.length = e.length) ∧
    (sampleSectionFile.length < 0 + TLVsize →
      [([65, 65, 65, 65], SectionEntry.mk 9 2 true (some [7, 9]))] = []) ∧
    (∀ t e, lookupAssoc
      (updAssoc [([65, 65, 65, 65], SectionEntry.mk 9 2 true (some [7, 9]))] t e) t = some e) :=
  section_table_invariants sampleSectionFile 0 _ (by rfl)

/-! ## Rejection of an invalid magic signature -/

/-- Claim C6: when the leading fixed-width bytes fail the magic
pattern, opening fails with the format error before any further
parsing — the result depends only on the leading bytes, and the pure
error result models that no partially constructed object, handle or
mapping survives. -/
theorem openTNT_invalid_magic_fails (magicLen : Nat) (magicOk : List Nat → Bool)
    (file : List Nat) (h : magicOk (file.take magicLen) = false) :
    openTNT magicLen magicOk file = .error .formatError ∧
    (magicLen ≤ file.length →
      ∀ junk, openTNT magicLen magicOk (file.take magicLen ++ junk) = .error .formatError) := by
  constructor
  · by_cases h1 : (file.take magicLen).length = magicLen
    · unfold openTNT
      rw [if_pos h1, if_neg (by simp [h])]
    · unfold openTNT
      rw [if_neg h1]
  · intro hlen junk
    have hl : (file.take magicLen).length = magicLen := by
      rw [List.length_take]
      omega
    have htake : (file.take magicLen ++ junk).take magicLen = file.take magicLen :=
      List.take_left' hl
    unfold openTNT
    rw [htake, if_pos hl, if_neg (by simp [h])]

/-- Witness for C6: a 6-byte file whose four leading zero bytes fail a
concrete magic check. -/
theorem openTNT_invalid_magic_fails_witness :
    openTNT 4 (fun b => b = [84, 78, 84, 49]) [0, 0, 0, 0, 1, 2] = .error .formatError ∧
    (4 ≤ ([0, 0, 0, 0, 1, 2] : List Nat).length →
      ∀ junk, openTNT 4 (fun b => b = [84, 78, 84, 49])
        (([0, 0, 0, 0, 1, 2] : List Nat).take 4 ++ junk) = .error .formatError) :=
  openTNT_invalid_magic_fails 4 _ _ (by decide)

/-! ## The DC-offset slice -/

/-- For fewer than 8 points `npts / 8` is 0, `int(npts / -8)` is 0 and
the slice starts at the beginning. -/
theorem dcSliceStart_small (npts : Nat) (h : npts < 8) : dcSliceStart npts = 0 := by
  unfold dcSliceStart sliceStartPy
  rw [Nat.div_eq_of_lt h]
  norm_num

/-- For at least 8 points the negative slice start counts from the
end: the slice keeps the last `npts / 8` points. -/
theorem dcSliceStart_large (npts : Nat) (h : 8 ≤ npts) : dcSliceStart npts = npts - npts / 8 := by
  unfold dcSliceStart sliceStartPy
  have h81 : 1 ≤ npts / 8 := by
    rw [Nat.one_le_div_iff (by norm_num)]
    omega
  rw [if_pos (by omega : -((npts / 8 : Nat) : Int) < 0)]
  omega

/-- Claim C8: with no DC-offset override, the estimated DC offset for
`npts < 8` is the mean of all `npts` samples along the first axis —
the slice start `int(npts / -8)` truncates to 0 — and for `npts ≥ 8`
it is the mean of the last `npts / 8` samples. -/
theorem defaultDCoffset_mean_rule (npts : Nat) (T : Type) (DATA : Fin npts → T → ℂ) (t : T) :
    defaultDCoffset npts T DATA t =
      if npts < 8 then (∑ j : Fin npts, DATA j t) / (npts : ℂ)
      else (∑ j ∈ Finset.univ.filter (fun j : Fin npts => npts - npts / 8 ≤ j.val), DATA j t) /
        ((npts / 8 : Nat) : ℂ) := by
  by_cases h : npts < 8
  · rw [if_pos h]
    unfold defaultDCoffset
    rw [dcSliceStart_small npts h]
    rw [Finset.filter_true_of_mem (fun j _ => Nat.zero_le _), Nat.sub_zero]
  · rw [if_neg h]
    unfold defaultDCoffset
    have hcount : npts - (npts - npts / 8) = npts / 8 := by
      have := Nat.div_le_self npts 8
      omega
    rw [dcSliceStart_large npts (by omega), hcount]

/-! ## Phase invariance of the spectrum magnitude -/

/-- A manual phase factor has unit modulus. -/
theorem abs_exp_I_mul_real (r : ℝ) : Complex.abs (Complex.exp (Complex.I * (r : ℂ))) = 1 := by
  rw [Complex.abs_exp]
  simp [Complex.mul_re]

/-- Claim C10: for any fixed input, line broadening, zero-fill and DC
offset, the elementwise magnitude of `LBfft` does not depend on the
manual phase parameters: phasing multiplies by unit-modulus factors
only. -/
theorem LBfft_abs_phase_invariant (npts : Nat) (T : Type) [Fintype T]
    (DATA : Fin npts → T → ℂ) (dwell LB : ℝ) (zf : Nat) (DCoffset : Option (T → ℂ))
    (p q : ℝ) (k : Fin (npts * 2 ^ zf)) (t : T) :
    Complex.abs (LBfft npts T DATA dwell LB zf (some p) q DCoffset k t) =
    Complex.abs (LBfft npts T DATA dwell LB zf (some 0) 0 DCoffset k t) := by
  unfold LBfft
  simp only [map_mul, abs_exp_I_mul_real, mul_one]

/-! ## The impulse response of the windowed FFT -/

/-- For `npts ≥ 8` the DC slice starts at index 1 or later, so the
estimated DC offset of a unit impulse at index 0 is zero. -/
theorem defaultDCoffset_impulse_zero (npts : Nat) (h8 : 8 ≤ npts) (T : Type) (t : T) :
    defaultDCoffset npts T (fun j _ => if j.val = 0 then (1 : ℂ) else 0) t = 0 := by
  unfold defaultDCoffset
  rw [Finset.sum_eq_zero, zero_div]
  intro j hj
  rw [Finset.mem_filter] at hj
  have hstart : 1 ≤ dcSliceStart npts := by
    rw [dcSliceStart_large npts h8]
    have := Nat.div_lt_self (by omega : 0 < npts) (by norm_num : 1 < 8)
    omega
  simp only [if_neg (by omega : ¬j.val = 0)]

/-- The zero-filled DFT of a unit impulse at index 0 is the constant
function 1. -/
theorem dftPad_impulse (npts m : Nat) (T : Type) (hnpts : 0 < npts) (k : Fin m) (t : T) :
    dftPad npts m T (fun j _ => if j.val = 0 then (1 : ℂ) else 0) k t = 1 := by
  have hpos : 0 < m := k.pos
  unfold dftPad
  rw [Finset.sum_eq_single (⟨0, hpos⟩ : Fin m)]
  · rw [dif_pos (by simpa using hnpts)]
    norm_num
  · intro j _ hj
    have hjv : ¬j.val = 0 := fun hc => hj (Fin.ext hc)
    by_cases hlt : j.val < npts
    · rw [dif_pos hlt]
      simp only [if_neg hjv, zero_mul]
    · rw [dif_neg hlt, zero_mul]
  · intro hmem
    exact absurd (Finset.mem_univ _) hmem

/-- Claim C4 (amended): for a unit impulse at index 0 with first-axis
length `npts ≥ 8`, `LBfft` with `LB = 0`, `zf = 0`, `phase = 0`,
`ph1 = 0` and no DC-offset override returns an array whose magnitudes
all equal `1 / sqrt npts`; for `npts < 8` the estimated DC offset
includes the impulse itself and the property fails. -/
theorem LBfft_impulse_flat_of_npts_ge_eight (npts : Nat) (T : Type) [Fintype T] (dwell : ℝ)
    (h8 : 8 ≤ npts) (k : Fin (npts * 2 ^ 0)) (t : T) :
    Complex.abs (LBfft npts T (fun j _ => if j.val = 0 then 1 else 0) dwell 0 0
      (some 0) 0 none k t) = 1 / Real.sqrt npts := by
  have hm : npts * 2 ^ 0 = npts := by norm_num
  have h0 : LBfft npts T (fun j _ => if j.val = 0 then (1 : ℂ) else 0) dwell 0 0
      (some 0) 0 none k t =
      (dftPad npts (npts * 2 ^ 0) T
          (fun j t2 =>
            ((if j.val = 0 then (1 : ℂ) else 0) -
                defaultDCoffset npts T (fun j _ => if j.val = 0 then (1 : ℂ) else 0) t2) *
              (Real.exp (-(0 : ℝ) * dwell * Real.pi * j.val) : ℝ))
          (fftshiftIdx (npts * 2 ^ 0) k) t /
        (Real.sqrt (npts * 2 ^ 0 : ℕ) : ℝ)) *
      Complex.exp (Complex.I * (((0 : ℝ) + (0 : ℝ) * linspaceVal (npts * 2 ^ 0) k.val : ℝ) : ℂ)) :=
    rfl
  have hfun : (fun (j : Fin npts) (t2 : T) =>
      ((if j.val = 0 then (1 : ℂ) else 0) -
          defaultDCoffset npts T (fun j _ => if j.val = 0 then (1 : ℂ) else 0) t2) *
        (Real.exp (-(0 : ℝ) * dwell * Real.pi * j.val) : ℝ)) =
      fun j _ => if j.val = 0 then (1 : ℂ) else 0 := by
    funext j t2
    rw [defaultDCoffset_impulse_zero npts h8 T t2, sub_zero]
    norm_num
  rw [h0, hfun, dftPad_impulse npts (npts * 2 ^ 0) T (by omega) (fftshiftIdx (npts * 2 ^ 0) k) t]
  rw [map_mul, abs_exp_I_mul_real, mul_one, map_div₀, map_one, Complex.abs_ofReal, hm,
    abs_of_nonneg (Real.sqrt_nonneg _)]

/-- Counterexample for C4 as stated: for `npts = 1` the DC slice start
`int(1 / -8)` truncates to 0, so the estimated DC offset is the mean
of all samples — the impulse itself — and the spectrum is identically
zero instead of having magnitude `1 / sqrt 1 = 1`. -/
theorem LBfft_impulse_singleton_cex :
    Complex.abs (LBfft 1 PUnit (fun j _ => if j.val = 0 then 1 else 0) 1 0 0
      (some 0) 0 none ⟨0, by norm_num⟩ PUnit.unit) ≠ 1 / Real.sqrt 1 := by
  have hDC : ∀ t2 : PUnit, defaultDCoffset 1 PUnit
      (fun j _ => if j.val = 0 then (1 : ℂ) else 0) t2 = 1 := by
    intro t2
    unfold defaultDCoffset
    rw [dcSliceStart_small 1 (by norm_num)]
    rw [Finset.filter_true_of_mem (fun j _ => Nat.zero_le _)]
    norm_num
  have h0 : LBfft 1 PUnit (fun j _ => if j.val = 0 then (1 : ℂ) else 0) 1 0 0
      (some 0) 0 none ⟨0, by norm_num⟩ PUnit.unit =
      (dftPad 1 (1 * 2 ^ 0) PUnit
          (fun j t2 =>
            ((if j.val = 0 then (1 : ℂ) else 0) -
                defaultDCoffset 1 PUnit (fun j _ => if j.val = 0 then (1 : ℂ) else 0) t2) *
              (Real.exp (-(0 : ℝ) * 1 * Real.pi * j.val) : ℝ))
          (fftshiftIdx (1 * 2 ^ 0) ⟨0, by norm_num⟩) PUnit.unit /
        (Real.sqrt (1 * 2 ^ 0 : ℕ) : ℝ)) *
      Complex.exp (Complex.I *
        (((0 : ℝ) + (0 : ℝ) * linspaceVal (1 * 2 ^ 0) (0 : Nat) : ℝ) : ℂ)) :=
    rfl
  have hfun : (fun (j : Fin 1) (t2 : PUnit) =>
      ((if j.val = 0 then (1 : ℂ) else 0) -
          defaultDCoffset 1 PUnit (fun j _ => if j.val = 0 then (1 : ℂ) else 0) t2) *
        (Real.exp (-(0 : ℝ) * 1 * Real.pi * j.val) : ℝ)) =
      fun _ _ => (0 : ℂ) := by
    funext j t2
    rw [hDC t2]
    have hj0 : j.val = 0 := by omega
    rw [if_pos hj0, sub_self, zero_mul]
  have hz : dftPad 1 (1 * 2 ^ 0) PUnit (fun _ _ => (0 : ℂ))
      (fftshiftIdx (1 * 2 ^ 0) ⟨0, by norm_num⟩) PUnit.unit = 0 := by
    unfold dftPad
    apply Finset.sum_eq_zero
    intro j _
    by_cases hlt : j.val < 1
    · rw [dif_pos hlt, zero_mul]
    · rw [dif_neg hlt, zero_mul]
  rw [h0, hfun, hz, zero_div, zero_mul, map_zero]
  rw [Real.sqrt_one]
  norm_num

/-- Witness for the amended C4 at `npts = 8`. -/
theorem LBfft_impulse_flat_witness :
    Complex.abs (LBfft 8 PUnit (fun j _ => if j.val = 0 then 1 else 0) 1 0 0
      (some 0) 0 none ⟨0, by norm_num⟩ PUnit.unit) = 1 / Real.sqrt 8 :=
  LBfft_impulse_flat_of_npts_ge_eight 8 PUnit 1 (by norm_num) ⟨0, by norm_num⟩ PUnit.unit

end PyTNT
